import Mathlib

/-!
Verification development for the Impulcifer HRIR pipeline (`impulcifer.py`).

The source's numeric code runs on IEEE floats; the embedding uses exact
rationals `ℚ` for sample values.  Transcendental constants that the source
computes with NumPy/SciPy (the exponential taper and FFT probe of the
inverse filter, the Kaiser fade-in window, the smoothed RMS decay curve)
enter the embedded functions as explicit parameters, so every definition
stays executable; the structure of each function is translated line by
line from the Python source.
-/

set_option linter.unusedVariables false

namespace Impulcifer

attribute [local semireducible] Rat.add Rat.mul Rat.inv Rat.sub Rat.ofScientific

/-! ### Python / NumPy modelling helpers -/

/-- Python `xs[s:]` slicing with an integer (possibly negative) start:
a negative start counts from the end and is clamped at 0. -/
def pySliceFrom (xs : List ℚ) (s : ℤ) : List ℚ :=
  if s < 0 then xs.drop (((xs.length : ℤ) + s).toNat) else xs.drop s.toNat

/-- Python `int(q)` : truncation toward zero. -/
def pyInt (q : ℚ) : ℤ := q.num.tdiv q.den

/-- `np.round` / Python `round`: round half to even. -/
def npRound (q : ℚ) : ℤ :=
  let f := ⌊q⌋
  let r := q - f
  if r < 1/2 then f
  else if 1/2 < r then f + 1
  else if f % 2 = 0 then f else f + 1

/-- Maximum element of a list of rationals (`np.max`); meaningful for
nonempty lists, `0` for the empty list (where NumPy raises). -/
def listMax (l : List ℚ) : ℚ := l.foldl max (l.headD 0)

/-- First index at which a list attains a given value; length if absent. -/
def firstEqAux (v : ℚ) : List ℚ → ℕ
  | [] => 0
  | x :: t => if x = v then 0 else firstEqAux v t + 1

/-- `np.argmax` over rationals: index of the first occurrence of the
maximum (0 on the empty list, where NumPy raises). -/
def npArgmax (l : List ℚ) : ℕ := firstEqAux (listMax l) l

/-- Index of the first element strictly below a threshold, if any. -/
def firstBelowAux (nf : ℚ) : List ℚ → Option ℕ
  | [] => none
  | x :: t => if x < nf then some 0 else (firstBelowAux nf t).map (· + 1)

/-! ### Decay Analyzer: `tail_index` (impulcifer.py lines 192-215)

`tail_index(rms, rms_window_size)` receives the smoothed RMS-in-dB curve
(whose computation in `impulse_response_decay` uses floating sqrt/log10
and Savitzky-Golay smoothing and is therefore taken as given data here)
and the window size. -/

/-- The `for i in range(peak_index+1, len(rms)) : if rms[i] > rms[i-1]: break`
loop: first index `≥ i` where the value rises above its predecessor,
`len - 1` when the loop runs to completion. -/
def firstRiseGo (rms : List ℚ) : ℕ → ℕ → ℕ
  | _, 0 => rms.length - 1
  | i, fuel + 1 =>
    if i < rms.length then
      if rms.getD (i-1) 0 < rms.getD i 0 then i else firstRiseGo rms (i+1) fuel
    else rms.length - 1

/-- Noise floor estimate of `tail_index`: the RMS value at the first rise
after the peak window, plus the 3 dB safety margin. -/
def noiseFloor (rms : List ℚ) : ℚ :=
  rms.getD (firstRiseGo rms (npArgmax rms + 1) rms.length) 0 + 3

/-- `tail_index(rms, rms_window_size)` from impulcifer.py.  Returns `none`
in the cases where the Python function raises (`np.argmax` on an empty
array; `NameError` when the peak is the last window so the loop body never
runs and `i` is unbound).  `np.argmax(rms < noise_floor)` selects the first
`True`, i.e. the first window of the whole array below the floor, and `0`
when there is none; the final `int(tail_ind)` truncates. -/
def tail_index (rms : List ℚ) (ws : ℚ) : Option ℕ :=
  if rms.length = 0 then none
  else if rms.length ≤ npArgmax rms + 1 then none
  else
    let t := (firstBelowAux (noiseFloor rms) rms).getD 0
    some (((t : ℚ) * ws).floor.toNat)

/-! Helper lemmas for the `tail_index` theorems. -/

theorem firstBelowAux_some {nf : ℚ} : ∀ {l : List ℚ} {j : ℕ},
    firstBelowAux nf l = some j →
    j < l.length ∧ l.getD j 0 < nf ∧ ∀ k < j, nf ≤ l.getD k 0 := by
  intro l
  induction l with
  | nil => intro j h; simp [firstBelowAux] at h
  | cons x t ih =>
    intro j h
    by_cases hx : x < nf
    · simp [firstBelowAux, hx] at h
      subst h
      refine ⟨by simp, by simpa using hx, ?_⟩
      intro k hk; omega
    · simp [firstBelowAux, hx] at h
      obtain ⟨j', hj', rfl⟩ := h
      obtain ⟨h1, h2, h3⟩ := ih hj'
      refine ⟨by simpa using h1, by simpa using h2, ?_⟩
      intro k hk
      cases k with
      | zero => simpa using le_of_not_lt hx
      | succ k' => simpa using h3 k' (by omega)

theorem firstBelowAux_none {nf : ℚ} : ∀ {l : List ℚ},
    firstBelowAux nf l = none → ∀ k < l.length, nf ≤ l.getD k 0 := by
  intro l
  induction l with
  | nil => intro _ k hk; simp at hk
  | cons x t ih =>
    intro h k hk
    by_cases hx : x < nf
    · simp [firstBelowAux, hx] at h
    · simp [firstBelowAux, hx] at h
      cases k with
      | zero => simpa using le_of_not_lt hx
      | succ k' => simpa using ih h k' (by simpa using hk)

/-- C1 (amended): the tail index is `⌊j·ws⌋` where `j` is the index of the
first window **of the entire curve** (not only at or after the peak) whose
RMS falls below the estimated noise floor plus 3 dB, or `j = 0` when no
window is below the floor; `j` is less than the number of windows, so the
sample index is at most `(len−1)·ws` and in particular less than the
length of the analysed signal. -/
theorem tail_index_first_below_anywhere (rms : List ℚ) (ws : ℚ) (hws : 0 ≤ ws)
    (hne : rms ≠ []) (hpk : npArgmax rms + 1 < rms.length) :
    ∃ j : ℕ, tail_index rms ws = some (((j : ℚ) * ws).floor.toNat) ∧
      j < rms.length ∧
      (∀ k < j, noiseFloor rms ≤ rms.getD k 0) ∧
      (rms.getD j 0 < noiseFloor rms ∨
        (j = 0 ∧ ∀ k < rms.length, noiseFloor rms ≤ rms.getD k 0)) ∧
      (j : ℚ) * ws ≤ ((rms.length - 1 : ℕ) : ℚ) * ws := by
  have hlen : 0 < rms.length := by
    cases rms with
    | nil => exact absurd rfl hne
    | cons a t => simp
  have hne0 : ¬ rms.length = 0 := by omega
  have hnle : ¬ rms.length ≤ npArgmax rms + 1 := by omega
  cases hfb : firstBelowAux (noiseFloor rms) rms with
  | none =>
    refine ⟨0, ?_, hlen, ?_, ?_, ?_⟩
    · simp [tail_index, hne0, hnle, hfb]
    · intro k hk; omega
    · exact Or.inr ⟨rfl, firstBelowAux_none hfb⟩
    · have : ((0:ℕ) : ℚ) ≤ ((rms.length - 1 : ℕ) : ℚ) := by positivity
      exact mul_le_mul_of_nonneg_right this hws
  | some j =>
    obtain ⟨h1, h2, h3⟩ := firstBelowAux_some hfb
    refine ⟨j, ?_, h1, h3, Or.inl h2, ?_⟩
    · simp [tail_index, hne0, hnle, hfb]
    · have : (j : ℚ) ≤ ((rms.length - 1 : ℕ) : ℚ) := by
        exact_mod_cast Nat.le_sub_one_of_lt h1
      exact mul_le_mul_of_nonneg_right this hws

/-- Witness for `tail_index_first_below_anywhere` at a concrete curve. -/
theorem tail_index_first_below_anywhere_witness :
    ∃ j : ℕ, tail_index [0, -10, -4, -3] 2 = some (((j : ℚ) * 2).floor.toNat) ∧
      j < ([0, -10, -4, -3] : List ℚ).length ∧
      (∀ k < j, noiseFloor [0, -10, -4, -3] ≤ ([0, -10, -4, -3] : List ℚ).getD k 0) ∧
      (([0, -10, -4, -3] : List ℚ).getD j 0 < noiseFloor [0, -10, -4, -3] ∨
        (j = 0 ∧ ∀ k < ([0, -10, -4, -3] : List ℚ).length,
          noiseFloor [0, -10, -4, -3] ≤ ([0, -10, -4, -3] : List ℚ).getD k 0)) ∧
      (j : ℚ) * 2 ≤ ((([0, -10, -4, -3] : List ℚ).length - 1 : ℕ) : ℚ) * 2 :=
  tail_index_first_below_anywhere [0, -10, -4, -3] 2 (by norm_num)
    (by decide) (by decide)

/-- C1 counterexample: for the smoothed curve `[-50, 0, -10, -5]` with
window size 1, the peak window is 1 and the first window at or after the
peak below the noise floor (−2 dB) is window 2, but the code returns
sample index 0 — the `np.argmax(rms < noise_floor)` scan starts at the
beginning of the array, not at the peak, so the returned index can precede
the peak-energy window. -/
theorem tail_index_cex :
    tail_index [-50, 0, -10, -5] 1 = some 0 ∧
    npArgmax [-50, 0, -10, -5] = 1 ∧
    ([-50, 0, -10, -5] : List ℚ).getD 2 0 < noiseFloor [-50, 0, -10, -5] := by
  refine ⟨?_, ?_, ?_⟩ <;> decide

/-! ### Normalizer: `normalize` (impulcifer.py lines 148-152)

`normalize(x, target_db)`: `arg_max = np.unravel_index(np.argmax(x), x.shape)`
finds the (first) largest **signed** sample across the flattened array;
every sample is divided by the absolute value of that sample and scaled by
`10**(target_db/20)`.  The scale factor `10^(target_db/20)` is
transcendental for the default `target_db = -0.1`, so it enters as the
parameter `g`. -/

/-- `normalize(x, target_db)` with `g = 10^(target_db/20)`. -/
def normalize (x : List (List ℚ)) (g : ℚ) : List (List ℚ) :=
  let peak := listMax x.flatten
  x.map (fun row => row.map (fun v => v / |peak| * g))

/-- Global peak magnitude of a multichannel set (what the spec says the
normalizer brings to the target level). -/
def globalAbsPeak (x : List (List ℚ)) : ℚ := listMax (x.flatten.map (fun v => |v|))

/-- C4 (code bug): on the two-sample set `[[-2, 1]]` the sample of largest
absolute value is `-2`, but `np.argmax` selects the largest *signed* value
`1`, so the whole set is divided by `|1| = 1` and multiplied by the target
gain `g`: the resulting global peak magnitude is `2·g`, not the target
level `g` — contradicting both the spec and the source's own comment
"Normalize by largest abs value". -/
theorem normalize_largest_value_bug (g : ℚ) (hg : 0 < g) :
    normalize [[-2, 1]] g = [[-2 * g, g]] ∧
    globalAbsPeak (normalize [[-2, 1]] g) = 2 * g ∧
    globalAbsPeak (normalize [[-2, 1]] g) ≠ g := by
  have hmax : listMax ([[-2, 1]] : List (List ℚ)).flatten = 1 := by
    norm_num [listMax, List.flatten]
  have h1 : normalize [[-2, 1]] g = [[-2 * g, g]] := by
    simp only [normalize, hmax]
    norm_num
  refine ⟨h1, ?_, ?_⟩
  · rw [h1]
    have h2 : |(-2 * g)| = 2 * g := by
      rw [abs_of_nonpos (by nlinarith)]; ring
    have h3 : |g| = g := abs_of_pos hg
    simp only [globalAbsPeak, List.flatten, List.map, List.append_nil, listMax,
      List.headD, List.foldl, h2, h3]
    rw [max_self, max_eq_left (by nlinarith)]
  · rw [h1]
    have h2 : |(-2 * g)| = 2 * g := by
      rw [abs_of_nonpos (by nlinarith)]; ring
    have h3 : |g| = g := abs_of_pos hg
    simp only [globalAbsPeak, List.flatten, List.map, List.append_nil, listMax,
      List.headD, List.foldl, h2, h3]
    rw [max_self, max_eq_left (by nlinarith)]
    intro h
    nlinarith

/-- Witness for `normalize_largest_value_bug` at the concrete gain 1/2. -/
theorem normalize_largest_value_bug_witness :
    normalize [[-2, 1]] (1/2) = [[-2 * (1/2), 1/2]] ∧
    globalAbsPeak (normalize [[-2, 1]] (1/2)) = 2 * (1/2) ∧
    globalAbsPeak (normalize [[-2, 1]] (1/2)) ≠ 1/2 :=
  normalize_largest_value_bug (1/2) (by norm_num)

/-! ### Track Reorderer: `reorder_tracks` (impulcifer.py lines 385-409)

Track names are Python strings `speaker + '-left'` / `speaker + '-right'`;
`IR_ORDER` is built from `SPEAKER_NAMES` exactly as in the module header
(lines 15-21). -/

def SPEAKER_NAMES : List String := ["FL", "FR", "FC", "BL", "BR", "SL", "SR"]

/-- The per-speaker `['-left', '-right']` name expansion used both for
`IR_ORDER` (lines 18-21) and for `track_names` (lines 397-400). -/
def trackNames : List String → List String
  | [] => []
  | s :: rest => (s ++ "-left") :: (s ++ "-right") :: trackNames rest

def IR_ORDER : List String := trackNames SPEAKER_NAMES

/-- Python `list.index` (first occurrence; callers only use it on members). -/
def pyIndexAux (x : String) : List String → ℕ
  | [] => 0
  | y :: t => if y = x then 0 else pyIndexAux x t + 1

/-- `reorder_tracks(tracks, speakers)`: for every canonical channel name,
take the matching declared track, or an all-zero track of the common track
length when the name is not among the declared track names.  The Python
function has no failure path: names never matched (e.g. built from an
unrecognized speaker label) are silently skipped. -/
def reorder_tracks (tracks : List (List ℚ)) (speakers : List String) : List (List ℚ) :=
  IR_ORDER.map (fun ch =>
    if ch ∈ trackNames speakers then tracks.getD (pyIndexAux ch (trackNames speakers)) []
    else List.replicate (tracks.headD []).length 0)

/-! String helper lemmas for track-name reasoning. -/

theorem string_data_append (s t : String) : (s ++ t).data = s.data ++ t.data := rfl

theorem string_eq_of_data {s t : String} (h : s.data = t.data) : s = t := by
  cases s; cases t; exact congrArg String.mk h

theorem string_append_right_cancel {s t u : String} (h : s ++ u = t ++ u) : s = t := by
  apply string_eq_of_data
  have h2 : s.data ++ u.data = t.data ++ u.data := by
    rw [← string_data_append, ← string_data_append, h]
  exact List.append_cancel_right h2

theorem char_data_left_ne_right (a b : List Char) :
    a ++ ['-','l','e','f','t'] ≠ b ++ ['-','r','i','g','h','t'] := by
  intro h
  have h2 := congrArg List.reverse h
  rw [List.reverse_append, List.reverse_append] at h2
  have e1 : (['-','l','e','f','t'] : List Char).reverse = ['t','f','e','l','-'] := by decide
  have e2 : (['-','r','i','g','h','t'] : List Char).reverse = ['t','h','g','i','r','-'] := by
    decide
  rw [e1, e2] at h2
  simp only [List.cons_append, List.nil_append] at h2
  injection h2 with h3 h4
  injection h4 with h5 h6
  exact absurd h5 (by decide)

theorem string_left_ne_right (s t : String) : s ++ "-left" ≠ t ++ "-right" := by
  intro h
  have h2 : s.data ++ ['-','l','e','f','t'] = t.data ++ ['-','r','i','g','h','t'] := by
    have := congrArg String.data h
    simpa [string_data_append] using this
  exact char_data_left_ne_right s.data t.data h2

theorem mem_trackNames_left (sp : String) :
    ∀ (speakers : List String), (sp ++ "-left") ∈ trackNames speakers ↔ sp ∈ speakers := by
  intro speakers
  induction speakers with
  | nil => simp [trackNames]
  | cons s rest ih =>
    simp only [trackNames, List.mem_cons, ih]
    constructor
    · rintro (h | h | h)
      · exact Or.inl (string_append_right_cancel h)
      · exact absurd h (string_left_ne_right sp s)
      · exact Or.inr h
    · rintro (rfl | h)
      · exact Or.inl rfl
      · exact Or.inr (Or.inr h)

theorem mem_trackNames_right (sp : String) :
    ∀ (speakers : List String), (sp ++ "-right") ∈ trackNames speakers ↔ sp ∈ speakers := by
  intro speakers
  induction speakers with
  | nil => simp [trackNames]
  | cons s rest ih =>
    simp only [trackNames, List.mem_cons, ih]
    constructor
    · rintro (h | h | h)
      · exact absurd h.symm (string_left_ne_right s sp)
      · exact Or.inl (string_append_right_cancel h)
      · exact Or.inr h
    · rintro (rfl | h)
      · exact Or.inr (Or.inl rfl)
      · exact Or.inr (Or.inr h)

theorem pyIndexAux_trackNames_left (sp : String) :
    ∀ (speakers : List String), sp ∈ speakers →
      pyIndexAux (sp ++ "-left") (trackNames speakers) = 2 * pyIndexAux sp speakers := by
  intro speakers
  induction speakers with
  | nil => intro h; simp at h
  | cons s rest ih =>
    intro h
    by_cases hs : s = sp
    · subst hs
      simp [trackNames, pyIndexAux]
    · have hmem : sp ∈ rest := by
        rcases List.mem_cons.mp h with h' | h'
        · exact absurd h'.symm hs
        · exact h'
      have hne1 : ¬ (s ++ "-left" = sp ++ "-left") := fun h' =>
        hs (string_append_right_cancel h')
      have hne2 : ¬ (s ++ "-right" = sp ++ "-left") := fun h' =>
        string_left_ne_right sp s h'.symm
      simp only [trackNames, pyIndexAux, if_neg hne1, if_neg hne2, if_neg hs, ih hmem]
      ring

theorem pyIndexAux_trackNames_right (sp : String) :
    ∀ (speakers : List String), sp ∈ speakers →
      pyIndexAux (sp ++ "-right") (trackNames speakers) = 2 * pyIndexAux sp speakers + 1 := by
  intro speakers
  induction speakers with
  | nil => intro h; simp at h
  | cons s rest ih =>
    intro h
    by_cases hs : s = sp
    · subst hs
      have hne : ¬ (s ++ "-left" = s ++ "-right") := string_left_ne_right s s
      simp [trackNames, pyIndexAux, if_neg hne]
    · have hmem : sp ∈ rest := by
        rcases List.mem_cons.mp h with h' | h'
        · exact absurd h'.symm hs
        · exact h'
      have hne1 : ¬ (s ++ "-left" = sp ++ "-right") := string_left_ne_right s sp
      have hne2 : ¬ (s ++ "-right" = sp ++ "-right") := fun h' =>
        hs (string_append_right_cancel h')
      simp only [trackNames, pyIndexAux, if_neg hne1, if_neg hne2, if_neg hs, ih hmem]
      ring

theorem trackNames_length : ∀ (names : List String),
    (trackNames names).length = 2 * names.length := by
  intro names
  induction names with
  | nil => rfl
  | cons s rest ih => simp [trackNames, ih]; ring

theorem trackNames_getD_left : ∀ (names : List String) (i : ℕ), i < names.length →
    (trackNames names).getD (2*i) "" = names.getD i "" ++ "-left" := by
  intro names
  induction names with
  | nil => intro i h; simp at h
  | cons s rest ih =>
    intro i h
    cases i with
    | zero => simp [trackNames]
    | succ i' =>
      have : 2 * (i' + 1) = (2 * i') + 1 + 1 := by ring
      simp only [trackNames, this, List.getD_cons_succ]
      exact ih i' (by simpa using h)

theorem trackNames_getD_right : ∀ (names : List String) (i : ℕ), i < names.length →
    (trackNames names).getD (2*i+1) "" = names.getD i "" ++ "-right" := by
  intro names
  induction names with
  | nil => intro i h; simp at h
  | cons s rest ih =>
    intro i h
    cases i with
    | zero => simp [trackNames]
    | succ i' =>
      have : 2 * (i' + 1) + 1 = (2 * i' + 1) + 1 + 1 := by ring
      simp only [trackNames, this, List.getD_cons_succ]
      exact ih i' (by simpa using h)

theorem getD_map_of_lt {α β : Type} (f : α → β) :
    ∀ (l : List α) (k : ℕ), k < l.length → ∀ (a : α) (b : β),
      (l.map f).getD k b = f (l.getD k a) := by
  intro l
  induction l with
  | nil => intro k h; simp at h
  | cons x t ih =>
    intro k h a b
    cases k with
    | zero => simp
    | succ k' => simpa using ih k' (by simpa using h) a b

/-- C6: for declared speakers drawn from the recognized set, reordering
the split tracks yields exactly 14 tracks; for each canonical speaker slot
`i` (0 = FL, …, 6 = SR), a declared speaker's two ear tracks appear
unchanged in slots `2i` and `2i+1` (taken from rows `2·idx` and `2·idx+1`
of the declared track matrix, `idx` the speaker's declared position), and
both slots of an absent speaker are all-zero tracks of the common track
length. -/
theorem reorder_tracks_canonical (tracks : List (List ℚ)) (speakers : List String) (m : ℕ)
    (hrec : ∀ s ∈ speakers, s ∈ SPEAKER_NAMES)
    (hcount : tracks.length = 2 * speakers.length)
    (hne : speakers ≠ [])
    (hm : ∀ t ∈ tracks, t.length = m) :
    (reorder_tracks tracks speakers).length = 14 ∧
    ∀ i, i < 7 →
      (SPEAKER_NAMES.getD i "" ∈ speakers →
        (reorder_tracks tracks speakers).getD (2*i) [] =
          tracks.getD (2 * pyIndexAux (SPEAKER_NAMES.getD i "") speakers) [] ∧
        (reorder_tracks tracks speakers).getD (2*i+1) [] =
          tracks.getD (2 * pyIndexAux (SPEAKER_NAMES.getD i "") speakers + 1) []) ∧
      (SPEAKER_NAMES.getD i "" ∉ speakers →
        (reorder_tracks tracks speakers).getD (2*i) [] = List.replicate m 0 ∧
        (reorder_tracks tracks speakers).getD (2*i+1) [] = List.replicate m 0) := by
  have hw : (tracks.headD []).length = m := by
    have hsp : 0 < speakers.length := List.length_pos.mpr hne
    cases tracks with
    | nil =>
      exfalso
      have h0 : (0:ℕ) = 2 * speakers.length := by simpa using hcount
      omega
    | cons t ts => exact hm t (List.mem_cons_self t ts)
  have hIRlen : IR_ORDER.length = 14 := by decide
  constructor
  · simp only [reorder_tracks, List.length_map, hIRlen]
  · intro i hi
    have hi' : i < SPEAKER_NAMES.length := by
      have : SPEAKER_NAMES.length = 7 := by decide
      omega
    have h2i : 2*i < IR_ORDER.length := by omega
    have h2i1 : 2*i+1 < IR_ORDER.length := by omega
    have eL : IR_ORDER.getD (2*i) "" = SPEAKER_NAMES.getD i "" ++ "-left" := by
      rw [IR_ORDER]; exact trackNames_getD_left SPEAKER_NAMES i hi'
    have eR : IR_ORDER.getD (2*i+1) "" = SPEAKER_NAMES.getD i "" ++ "-right" := by
      rw [IR_ORDER]; exact trackNames_getD_right SPEAKER_NAMES i hi'
    have emapL : (reorder_tracks tracks speakers).getD (2*i) [] =
        (fun ch => if ch ∈ trackNames speakers
          then tracks.getD (pyIndexAux ch (trackNames speakers)) []
          else List.replicate (tracks.headD []).length 0) (IR_ORDER.getD (2*i) "") := by
      simp only [reorder_tracks]
      exact getD_map_of_lt _ IR_ORDER (2*i) h2i "" []
    have emapR : (reorder_tracks tracks speakers).getD (2*i+1) [] =
        (fun ch => if ch ∈ trackNames speakers
          then tracks.getD (pyIndexAux ch (trackNames speakers)) []
          else List.replicate (tracks.headD []).length 0) (IR_ORDER.getD (2*i+1) "") := by
      simp only [reorder_tracks]
      exact getD_map_of_lt _ IR_ORDER (2*i+1) h2i1 "" []
    constructor
    · intro hmem
      constructor
      · rw [emapL, eL]
        simp only [if_pos ((mem_trackNames_left _ speakers).mpr hmem)]
        rw [pyIndexAux_trackNames_left _ speakers hmem]
      · rw [emapR, eR]
        simp only [if_pos ((mem_trackNames_right _ speakers).mpr hmem)]
        rw [pyIndexAux_trackNames_right _ speakers hmem]
    · intro hnmem
      constructor
      · rw [emapL, eL]
        simp only [if_neg (fun h => hnmem ((mem_trackNames_left _ speakers).mp h))]
        rw [hw]
      · rw [emapR, eR]
        simp only [if_neg (fun h => hnmem ((mem_trackNames_right _ speakers).mp h))]
        rw [hw]

/-- Witness for `reorder_tracks_canonical`: two recognized speakers in
non-canonical order `["FR", "FL"]` with one-sample tracks. -/
theorem reorder_tracks_canonical_witness :
    (reorder_tracks [[1],[2],[3],[4]] ["FR","FL"]).length = 14 ∧
    ∀ i, i < 7 →
      (SPEAKER_NAMES.getD i "" ∈ (["FR","FL"] : List String) →
        (reorder_tracks [[1],[2],[3],[4]] ["FR","FL"]).getD (2*i) [] =
          ([[1],[2],[3],[4]] : List (List ℚ)).getD
            (2 * pyIndexAux (SPEAKER_NAMES.getD i "") ["FR","FL"]) [] ∧
        (reorder_tracks [[1],[2],[3],[4]] ["FR","FL"]).getD (2*i+1) [] =
          ([[1],[2],[3],[4]] : List (List ℚ)).getD
            (2 * pyIndexAux (SPEAKER_NAMES.getD i "") ["FR","FL"] + 1) []) ∧
      (SPEAKER_NAMES.getD i "" ∉ (["FR","FL"] : List String) →
        (reorder_tracks [[1],[2],[3],[4]] ["FR","FL"]).getD (2*i) [] = List.replicate 1 0 ∧
        (reorder_tracks [[1],[2],[3],[4]] ["FR","FL"]).getD (2*i+1) [] = List.replicate 1 0) :=
  reorder_tracks_canonical [[1],[2],[3],[4]] ["FR","FL"] 1
    (by decide) (by decide) (by decide) (by decide)

/-- C5 counterexample: with the unrecognized label "XX" declared,
`reorder_tracks` does not fail at all — it returns a complete 14-track
all-zero output (the declared tracks are silently dropped). -/
theorem reorder_tracks_unrecognized_cex :
    reorder_tracks [[1,2],[3,4]] ["XX"] = List.replicate 14 [0, 0] := by decide

theorem mem_trackNames_elim : ∀ (names : List String) (ch : String),
    ch ∈ trackNames names → ∃ s ∈ names, ch = s ++ "-left" ∨ ch = s ++ "-right" := by
  intro names
  induction names with
  | nil => intro ch h; simp [trackNames] at h
  | cons s rest ih =>
    intro ch h
    rcases List.mem_cons.mp h with h' | h'
    · exact ⟨s, List.mem_cons_self s rest, Or.inl h'⟩
    · rcases List.mem_cons.mp h' with h'' | h''
      · exact ⟨s, List.mem_cons_self s rest, Or.inr h''⟩
      · obtain ⟨t, ht, hcase⟩ := ih ch h''
        exact ⟨t, List.mem_cons_of_mem s ht, hcase⟩

/-- C5 (amended): for **every** declared order containing an unrecognized
label, the reorder step does not fail: it still produces the 14 canonical
tracks, where each *recognized* declared speaker's ear pair appears
unchanged in its canonical slots (taken from rows `2·idx` / `2·idx+1` of
the declared track matrix) and every other slot — in particular all slots
fed by the unrecognized labels, whose tracks are silently dropped — is an
all-zero track of the common track length. -/
theorem reorder_tracks_unrecognized (tracks : List (List ℚ)) (speakers : List String)
    (m : ℕ)
    (hunrec : ∃ s ∈ speakers, s ∉ SPEAKER_NAMES)
    (hcount : tracks.length = 2 * speakers.length)
    (hm : ∀ t ∈ tracks, t.length = m) :
    (reorder_tracks tracks speakers).length = 14 ∧
    ∀ i, i < 7 →
      (SPEAKER_NAMES.getD i "" ∈ speakers →
        (reorder_tracks tracks speakers).getD (2*i) [] =
          tracks.getD (2 * pyIndexAux (SPEAKER_NAMES.getD i "") speakers) [] ∧
        (reorder_tracks tracks speakers).getD (2*i+1) [] =
          tracks.getD (2 * pyIndexAux (SPEAKER_NAMES.getD i "") speakers + 1) []) ∧
      (SPEAKER_NAMES.getD i "" ∉ speakers →
        (reorder_tracks tracks speakers).getD (2*i) [] = List.replicate m 0 ∧
        (reorder_tracks tracks speakers).getD (2*i+1) [] = List.replicate m 0) := by
  have hne : speakers ≠ [] := by
    obtain ⟨s, hs, _⟩ := hunrec
    intro h
    rw [h] at hs
    simp at hs
  have hw : (tracks.headD []).length = m := by
    have hsp : 0 < speakers.length := List.length_pos.mpr hne
    cases tracks with
    | nil =>
      exfalso
      have h0 : (0:ℕ) = 2 * speakers.length := by simpa using hcount
      omega
    | cons t ts => exact hm t (List.mem_cons_self t ts)
  have hIRlen : IR_ORDER.length = 14 := by decide
  constructor
  · simp only [reorder_tracks, List.length_map, hIRlen]
  · intro i hi
    have hi' : i < SPEAKER_NAMES.length := by
      have : SPEAKER_NAMES.length = 7 := by decide
      omega
    have h2i : 2*i < IR_ORDER.length := by omega
    have h2i1 : 2*i+1 < IR_ORDER.length := by omega
    have eL : IR_ORDER.getD (2*i) "" = SPEAKER_NAMES.getD i "" ++ "-left" := by
      rw [IR_ORDER]; exact trackNames_getD_left SPEAKER_NAMES i hi'
    have eR : IR_ORDER.getD (2*i+1) "" = SPEAKER_NAMES.getD i "" ++ "-right" := by
      rw [IR_ORDER]; exact trackNames_getD_right SPEAKER_NAMES i hi'
    have emapL : (reorder_tracks tracks speakers).getD (2*i) [] =
        (fun ch => if ch ∈ trackNames speakers
          then tracks.getD (pyIndexAux ch (trackNames speakers)) []
          else List.replicate (tracks.headD []).length 0) (IR_ORDER.getD (2*i) "") := by
      simp only [reorder_tracks]
      exact getD_map_of_lt _ IR_ORDER (2*i) h2i "" []
    have emapR : (reorder_tracks tracks speakers).getD (2*i+1) [] =
        (fun ch => if ch ∈ trackNames speakers
          then tracks.getD (pyIndexAux ch (trackNames speakers)) []
          else List.replicate (tracks.headD []).length 0) (IR_ORDER.getD (2*i+1) "") := by
      simp only [reorder_tracks]
      exact getD_map_of_lt _ IR_ORDER (2*i+1) h2i1 "" []
    constructor
    · intro hmem
      constructor
      · rw [emapL, eL]
        simp only [if_pos ((mem_trackNames_left _ speakers).mpr hmem)]
        rw [pyIndexAux_trackNames_left _ speakers hmem]
      · rw [emapR, eR]
        simp only [if_pos ((mem_trackNames_right _ speakers).mpr hmem)]
        rw [pyIndexAux_trackNames_right _ speakers hmem]
    · intro hnmem
      constructor
      · rw [emapL, eL]
        simp only [if_neg (fun h => hnmem ((mem_trackNames_left _ speakers).mp h))]
        rw [hw]
      · rw [emapR, eR]
        simp only [if_neg (fun h => hnmem ((mem_trackNames_right _ speakers).mp h))]
        rw [hw]

/-- Witness for `reorder_tracks_unrecognized` at the mixed order
`["FL", "XX"]`: FL's two tracks survive in slots 0 and 1, XX's tracks are
dropped, every other slot is a zero track. -/
theorem reorder_tracks_unrecognized_witness :
    (reorder_tracks [[1],[2],[3],[4]] ["FL","XX"]).length = 14 ∧
    ∀ i, i < 7 →
      (SPEAKER_NAMES.getD i "" ∈ (["FL","XX"] : List String) →
        (reorder_tracks [[1],[2],[3],[4]] ["FL","XX"]).getD (2*i) [] =
          ([[1],[2],[3],[4]] : List (List ℚ)).getD
            (2 * pyIndexAux (SPEAKER_NAMES.getD i "") ["FL","XX"]) [] ∧
        (reorder_tracks [[1],[2],[3],[4]] ["FL","XX"]).getD (2*i+1) [] =
          ([[1],[2],[3],[4]] : List (List ℚ)).getD
            (2 * pyIndexAux (SPEAKER_NAMES.getD i "") ["FL","XX"] + 1) []) ∧
      (SPEAKER_NAMES.getD i "" ∉ (["FL","XX"] : List String) →
        (reorder_tracks [[1],[2],[3],[4]] ["FL","XX"]).getD (2*i) [] =
          List.replicate 1 0 ∧
        (reorder_tracks [[1],[2],[3],[4]] ["FL","XX"]).getD (2*i+1) [] =
          List.replicate 1 0) :=
  reorder_tracks_unrecognized [[1],[2],[3],[4]] ["FL","XX"] 1
    (by decide) (by decide) (by decide)

/-! ### Track Splitter: `split_recording` (impulcifer.py lines 92-145)

The silence-alignment guard `silence_length * fs != int(silence_length * fs)`
runs before anything else.  The remaining body crops the initial silence,
cuts each track into `n_columns` columns of `silence + test` length and
interleaves ear pairs.  (For a recording with fewer than two rows Python
would raise `ZeroDivisionError` at `n_columns`, a different error than the
one modelled; negative silence lengths are clamped by `toNat` where Python
would slice from the end — neither situation involves the configuration
guard, which is the subject of the claim.) -/

inductive SplitError where
  | configuration
deriving DecidableEq

def split_recording (recording : List (List ℚ)) (testLen : ℕ) (speakers : List String)
    (fs : ℕ) (silence_length : ℚ) : Except SplitError (List (List ℚ)) :=
  if silence_length * (fs:ℚ) ≠ ((pyInt (silence_length * (fs:ℚ)) : ℤ) : ℚ) then
    .error .configuration
  else
    let sn := (pyInt (silence_length * (fs:ℚ))).toNat
    let nCols := (npRound ((speakers.length : ℚ) / ((recording.length / 2 : ℕ) : ℚ))).toNat
    let cropped := recording.map (fun row => row.drop sn)
    let cs := sn + testLen
    let col := fun (c p : ℕ) => ((cropped.getD p []).drop (c * cs)).take cs
    .ok ((List.range ((recording.length + 1) / 2)).flatMap (fun p =>
      (List.range nCols).flatMap (fun c => [col c (2*p), col c (2*p+1)])))

theorem exists_int_iff_pyInt (q : ℚ) : (∃ n : ℤ, q = (n:ℚ)) ↔ q = ((pyInt q : ℤ) : ℚ) := by
  constructor
  · rintro ⟨n, rfl⟩
    have h1 : pyInt ((n:ℤ) : ℚ) = n := by
      simp [pyInt, Rat.num_intCast, Rat.den_intCast]
    rw [h1]
  · intro h
    exact ⟨pyInt q, h⟩

/-- C9: `split_recording` fails with the configuration error exactly when
`silence_length × fs` is not an integer sample count; when it is integral
the splitter proceeds and returns a track list. -/
theorem split_recording_configuration_iff (recording : List (List ℚ)) (testLen : ℕ)
    (speakers : List String) (fs : ℕ) (silence_length : ℚ) :
    (split_recording recording testLen speakers fs silence_length =
        .error .configuration ↔ ¬ ∃ n : ℤ, silence_length * (fs:ℚ) = (n:ℚ)) ∧
    ((∃ n : ℤ, silence_length * (fs:ℚ) = (n:ℚ)) →
      ∃ ts, split_recording recording testLen speakers fs silence_length = .ok ts) := by
  by_cases hq : silence_length * (fs:ℚ) = ((pyInt (silence_length * (fs:ℚ)) : ℤ) : ℚ)
  · constructor
    · rw [split_recording, if_neg (by simpa using hq)]
      constructor
      · intro h
        exact absurd h (by simp)
      · intro hno
        exact (hno ((exists_int_iff_pyInt _).mpr hq)).elim
    · intro _
      exact ⟨_, by rw [split_recording, if_neg (by simpa using hq)]⟩
  · constructor
    · rw [split_recording, if_pos (by simpa using hq)]
      constructor
      · intro _ hex
        exact hq ((exists_int_iff_pyInt _).mp hex)
      · intro _
        rfl
    · intro hex
      exact absurd ((exists_int_iff_pyInt _).mp hex) hq

/-! ### Deconvolver: `deconv` (impulcifer.py lines 291-347), inverse-filter
method.

The inverse filter is `np.flip(test_signal) * c` with
`c[t] = exp(t·k)` an exponential taper and the result divided by the FFT
probe magnitude `|frp[round(len(frp)/4)]|`; both `c` and the probe are
irrational floating-point values, so they enter as the parameters `taper`
and `probe`.  The extraction slice `h[len(test): len(test)*2+1]` applied
to `fftconvolve(recording, inv_filter, mode='full')` extended by one
appended zero is translated exactly. -/

/-- Full linear convolution (`fftconvolve(..., mode='full')`, exact). -/
def fullConv (x y : List ℚ) : List ℚ :=
  (List.range (x.length + y.length - 1)).map (fun k =>
    ((List.range (k+1)).map (fun i => x.getD i 0 * y.getD (k - i) 0)).sum)

/-- The normalized inverse filter: time-reversed test signal, tapered by
`taper` (modelling `exp(t·k)`) and divided by the FFT probe magnitude. -/
def inv_filter (test : List ℚ) (taper : ℕ → ℚ) (probe : ℚ) : List ℚ :=
  ((List.range test.length).map (fun t => test.reverse.getD t 0 * taper t)).map
    (fun v => v / probe)

/-- `deconv(recording, test_signal, method='inverse_filter', fs)`:
`h = fftconvolve(recording, inv_filter); h = concat([h, [0.0]]);
h = h[len(test_signal) : len(test_signal)*2 + 1]`. -/
def deconv (recording test : List ℚ) (taper : ℕ → ℚ) (probe : ℚ) : List ℚ :=
  let h := fullConv recording (inv_filter test taper probe) ++ [0]
  (h.drop test.length).take (test.length + 1)

/-- C7 counterexample: with a recording no longer than the reference
(here both of length 2, exactly the situation of the pipeline, which calls
`deconv` with the recording and the zero-padded reference of equal length),
the extracted window has only `min(L+1, len(recording)) = 2` samples, not
the claimed `L + 1 = 3`. -/
theorem deconv_window_cex :
    (deconv [1, 0] [1, 1] (fun _ => 1) 1).length = 2 ∧
    ([1, 1] : List ℚ).length + 1 = 3 ∧ (2 : ℕ) ≠ 3 := by
  refine ⟨by decide, by decide, by decide⟩

/-- C7 (amended): whenever the recording is at least two samples longer
than the reference, the returned impulse response is exactly the window of
the full linear convolution of the recording with the normalized inverse
filter starting at sample index `len(test)` and spanning `len(test) + 1`
samples; for shorter recordings the window is clipped to
`min(len(test)+1, len(recording))` samples (second conjunct fails). -/
theorem deconv_window_amended (recording test : List ℚ) (taper : ℕ → ℚ) (probe : ℚ)
    (h : test.length + 2 ≤ recording.length) :
    deconv recording test taper probe =
      ((fullConv recording (inv_filter test taper probe)).drop test.length).take
        (test.length + 1) ∧
    (deconv recording test taper probe).length = test.length + 1 := by
  have hlf : (inv_filter test taper probe).length = test.length := by
    simp [inv_filter]
  have hcl : (fullConv recording (inv_filter test taper probe)).length =
      recording.length + test.length - 1 := by
    simp [fullConv, hlf]
  have hL : test.length ≤ (fullConv recording (inv_filter test taper probe)).length := by
    omega
  have hdrop : ((fullConv recording (inv_filter test taper probe)) ++ [0]).drop test.length =
      (fullConv recording (inv_filter test taper probe)).drop test.length ++ [0] :=
    List.drop_append_of_le_length hL
  have hdl : ((fullConv recording (inv_filter test taper probe)).drop test.length).length =
      recording.length - 1 := by
    rw [List.length_drop, hcl]; omega
  have htake : ((fullConv recording (inv_filter test taper probe)).drop test.length ++
      [0]).take (test.length + 1) =
      ((fullConv recording (inv_filter test taper probe)).drop test.length).take
        (test.length + 1) :=
    List.take_append_of_le_length (by omega)
  constructor
  · rw [deconv]
    rw [hdrop, htake]
  · rw [deconv]
    rw [hdrop, htake, List.length_take, hdl]
    omega

/-- Witness for `deconv_window_amended` with a 4-sample recording and a
2-sample reference. -/
theorem deconv_window_amended_witness :
    deconv [1, 2, 3, 4] [1, 1] (fun _ => 1) 1 =
      ((fullConv [1, 2, 3, 4] (inv_filter [1, 1] (fun _ => 1) 1)).drop
        ([1, 1] : List ℚ).length).take (([1, 1] : List ℚ).length + 1) ∧
    (deconv [1, 2, 3, 4] [1, 1] (fun _ => 1) 1).length = ([1, 1] : List ℚ).length + 1 :=
  deconv_window_amended [1, 2, 3, 4] [1, 1] (fun _ => 1) 1 (by decide)

/-! ### Head Aligner: `crop_ir_head` (impulcifer.py lines 218-272)

Peak detection is `scipy.signal.find_peaks(x / np.max(x), height=0.1)`:
interior local maxima (with plateau midpoints, as in scipy's
`_local_maxima_1d`) whose normalized height is at least 0.1; the code
takes the first peak of each channel (`IndexError` when there is none,
modelled as an error).  The speaker-delay table lookup happens before the
left/right consistency check (`KeyError` for unknown labels).  The Kaiser
fade-in window `kaiser(2*head, 16)[:head]` is transcendental and enters
as the parameter `w`; NumPy's in-place `left[:head] *= window` raises a
broadcast error when the cropped channel is shorter than `head`. -/

/-- Inner while loop of scipy `_local_maxima_1d`: advance `j` over the
plateau of value `v` while `j < n - 1`. -/
def aheadGo (x : List ℚ) (v : ℚ) : ℕ → ℕ → ℕ
  | j, 0 => j
  | j, fuel + 1 =>
    if j < x.length - 1 ∧ x.getD j 0 = v then aheadGo x v (j+1) fuel else j

/-- Outer loop of scipy `_local_maxima_1d`: midpoints of strict/plateau
local maxima over interior samples. -/
def lmaxGo (x : List ℚ) : ℕ → ℕ → List ℕ
  | _, 0 => []
  | i, fuel + 1 =>
    if i < x.length - 1 then
      if x.getD (i-1) 0 < x.getD i 0 then
        let ia := aheadGo x (x.getD i 0) (i+1) x.length
        if x.getD ia 0 < x.getD i 0 then
          ((i + ia - 1) / 2) :: lmaxGo x (ia + 1) fuel
        else lmaxGo x (i+1) fuel
      else lmaxGo x (i+1) fuel
    else []

/-- `scipy.signal.find_peaks(x, height=h)`: plateau-midpoint local maxima
whose height is at least `h`. -/
def find_peaks (x : List ℚ) (height : ℚ) : List ℕ :=
  (lmaxGo x 1 x.length).filter (fun m => decide (height ≤ x.getD m 0))

/-- `signal.find_peaks(x / np.max(x), height=0.1)[0][0]`, `none` when the
peak array is empty (Python `IndexError`). -/
def findFirstPeak (x : List ℚ) : Option ℕ :=
  (find_peaks (x.map (fun v => v / listMax x)) (1/10)).head?

/-- The `SPEAKER_DELAYS` table (ms). -/
def SPEAKER_DELAYS : List (String × ℚ) :=
  [("FL", 107/1000), ("FR", 107/1000), ("FC", 214/1000),
   ("BL", 107/1000), ("BR", 107/1000), ("SL", 0), ("SR", 0)]

def lookupDelay (speaker : String) : Option ℚ :=
  (SPEAKER_DELAYS.find? (fun p => decide (p.1 = speaker))).map (fun p => p.2)

/-- Python `speaker[1]` (all table keys have two characters). -/
def sideChar (speaker : String) : Char := speaker.data.getD 1 '?'

/-- `head = head_ms * fs // 1000`. -/
def headN (head_ms fs : ℕ) : ℕ := head_ms * fs / 1000

/-- `delay = int(np.round(SPEAKER_DELAYS[speaker] / 1000 * fs)) + head`
(the table delays are nonnegative, so `toNat` is exact). -/
def delayN (speaker : String) (fs head_ms : ℕ) : ℕ :=
  (npRound ((lookupDelay speaker).getD 0 / 1000 * (fs:ℚ))).toNat + headN head_ms fs

/-- The fade-in `left[:head] *= window` step: `none` models the NumPy
in-place broadcast error raised when the channel has fewer than `head`
samples. -/
def fadeIn (w : List ℚ) (head : ℕ) (xs : List ℚ) : Option (List ℚ) :=
  if xs.length < head then none
  else some (List.zipWith (fun a b => a * b) (xs.take head) w ++ xs.drop head)

inductive CropError where
  | noPeak
  | keyError
  | measurementIntegrity (speaker : String)
  | broadcast
deriving DecidableEq

deriving instance DecidableEq for Except

/-- `crop_ir_head(left, right, speaker, fs, head_ms=1)` translated line by
line; `w` is the Kaiser half-window `kaiser(head*2, 16)[:head]`. -/
def crop_ir_head (w left right : List ℚ) (speaker : String) (fs : ℕ) (head_ms : ℕ) :
    Except CropError (List ℚ × List ℚ) :=
  match findFirstPeak left with
  | none => .error .noPeak
  | some peak_left =>
    match findFirstPeak right with
    | none => .error .noPeak
    | some peak_right =>
      let itd := max peak_left peak_right - min peak_left peak_right
      let head := headN head_ms fs
      match lookupDelay speaker with
      | none => .error .keyError
      | some d =>
        let delay := (npRound (d / 1000 * (fs:ℚ))).toNat + head
        if peak_left < peak_right then
          if sideChar speaker = 'R' then .error (.measurementIntegrity speaker)
          else
            match fadeIn w head (pySliceFrom left ((peak_left : ℤ) - (delay : ℕ))),
                  fadeIn w head (pySliceFrom right ((peak_right : ℤ) - ((delay + itd : ℕ)))) with
            | some l2, some r2 => .ok (l2, r2)
            | _, _ => .error .broadcast
        else
          if sideChar speaker = 'L' then .error (.measurementIntegrity speaker)
          else
            match fadeIn w head (pySliceFrom left ((peak_left : ℤ) - ((delay + itd : ℕ)))),
                  fadeIn w head (pySliceFrom right ((peak_right : ℤ) - (delay : ℕ))) with
            | some l2, some r2 => .ok (l2, r2)
            | _, _ => .error .broadcast

/-- C3 (amended): given that a first qualifying peak is detected in both
channels and the speaker is a recognized label, `crop_ir_head` raises the
measurement-integrity error naming the speaker **iff** the left peak is
strictly earlier for an `'R'`-side speaker, or the right peak is earlier
*or simultaneous* for an `'L'`-side speaker (equal peaks count as
"right first" because the code's `if peak_left < peak_right` sends ties to
the right-side branch); the center speaker FC never raises it. -/
theorem crop_ir_head_integrity_iff (w left right : List ℚ) (speaker : String)
    (fs head_ms pl pr : ℕ)
    (hl : findFirstPeak left = some pl) (hr : findFirstPeak right = some pr)
    (hsp : speaker ∈ SPEAKER_NAMES) :
    (crop_ir_head w left right speaker fs head_ms =
        .error (.measurementIntegrity speaker)) ↔
    ((pl < pr ∧ sideChar speaker = 'R') ∨ (pr ≤ pl ∧ sideChar speaker = 'L')) := by
  obtain ⟨d, hd⟩ : ∃ d, lookupDelay speaker = some d := by
    fin_cases hsp <;> exact ⟨_, rfl⟩
  simp only [crop_ir_head, hl, hr, hd]
  by_cases hplr : pl < pr
  · simp only [if_pos hplr]
    by_cases hR : sideChar speaker = 'R'
    · simp [hR, hplr]
    · simp only [if_neg hR]
      constructor
      · intro h
        split at h
        · exact absurd h (by simp)
        · exact absurd h (by simp)
      · rintro (⟨_, hR'⟩ | ⟨hle, _⟩)
        · exact absurd hR' hR
        · omega
  · simp only [if_neg hplr]
    by_cases hL : sideChar speaker = 'L'
    · simp only [if_pos hL]
      simp only [true_iff]
      exact Or.inr ⟨by omega, hL⟩
    · simp only [if_neg hL]
      constructor
      · intro h
        split at h
        · exact absurd h (by simp)
        · exact absurd h (by simp)
      · rintro (⟨hlt, _⟩ | ⟨_, hL'⟩)
        · omega
        · exact absurd hL' hL

/-- Witness for `crop_ir_head_integrity_iff`: a consistent FL pair
(left ear peaks at 1, right ear at 2) raises nothing. -/
theorem crop_ir_head_integrity_iff_witness :
    (crop_ir_head [1] [0,1,0] [0,0,1,0] "FL" 1000 1 =
        .error (.measurementIntegrity "FL")) ↔
    ((1 < 2 ∧ sideChar "FL" = 'R') ∨ (2 ≤ 1 ∧ sideChar "FL" = 'L')) :=
  crop_ir_head_integrity_iff [1] [0,1,0] [0,0,1,0] "FL" 1000 1 1 2
    (by decide) (by decide) (by decide)

/-- C3 counterexample: equal peaks — neither ear arrives earlier — on the
left-side speaker FL still raise the measurement-integrity error, because
the tie falls into the `else` (right-side) branch. -/
theorem crop_ir_head_integrity_cex :
    findFirstPeak ([0,1,0] : List ℚ) = some 1 ∧
    crop_ir_head [1] [0,1,0] [0,1,0] "FL" 1000 1 =
      .error (.measurementIntegrity "FL") := by
  exact ⟨by decide, by decide⟩

/-! Helper lemmas about the crop slices and the fade-in step. -/

theorem pySliceFrom_nonneg (xs : List ℚ) (a b : ℕ) (h : b ≤ a) :
    pySliceFrom xs ((a : ℤ) - (b : ℕ)) = xs.drop (a - b) := by
  rw [pySliceFrom, if_neg (by omega)]
  congr 1
  omega

theorem pySliceFrom_negWrap (xs : List ℚ) (a b : ℕ) (h1 : a < b) (h2 : b - a ≤ xs.length) :
    pySliceFrom xs ((a : ℤ) - (b : ℕ)) = xs.drop (xs.length - (b - a)) := by
  rw [pySliceFrom, if_pos (by omega)]
  congr 1
  omega

theorem fadeIn_some_of_le (w : List ℚ) (head : ℕ) (xs : List ℚ) (h : head ≤ xs.length) :
    fadeIn w head xs =
      some (List.zipWith (fun a b => a * b) (xs.take head) w ++ xs.drop head) := by
  rw [fadeIn, if_neg (by omega)]

theorem fadeIn_length (w : List ℚ) (head : ℕ) (xs ys : List ℚ)
    (hw : w.length = head) (h : fadeIn w head xs = some ys) : ys.length = xs.length := by
  rw [fadeIn] at h
  by_cases hlt : xs.length < head
  · rw [if_pos hlt] at h
    exact absurd h (by simp)
  · rw [if_neg hlt] at h
    obtain rfl := Option.some.inj h
    rw [List.length_append, List.length_zipWith, List.length_take, hw, List.length_drop]
    omega

theorem fadeIn_drop (w : List ℚ) (head : ℕ) (xs ys : List ℚ)
    (hw : w.length = head) (h : fadeIn w head xs = some ys) (k : ℕ) (hk : head ≤ k) :
    ys.drop k = xs.drop k := by
  rw [fadeIn] at h
  by_cases hlt : xs.length < head
  · rw [if_pos hlt] at h
    exact absurd h (by simp)
  · rw [if_neg hlt] at h
    obtain rfl := Option.some.inj h
    have hzl : (List.zipWith (fun a b => a * b) (xs.take head) w).length = head := by
      rw [List.length_zipWith, List.length_take, hw]
      omega
    have hk' : k = (List.zipWith (fun a b => a * b) (xs.take head) w).length + (k - head) := by
      rw [hzl]; omega
    conv_lhs => rw [hk']
    rw [List.drop_append, List.drop_drop]
    congr 1
    omega

/-- C2 (amended): for a pair whose peak ordering is consistent with the
speaker's side **and whose earlier peak index is at least the target
delay** (with the half-window of the source's length `head`), the crop
succeeds and shifts both channels left by the same offset
`min(peaks) − targetDelay`: the sample that was the near ear's peak ends
up preceded by exactly `targetDelay` samples and the far ear's peak by
exactly `targetDelay + ITD` samples (`ITD = |peak_left − peak_right|`),
so the arrival-time difference is preserved. -/
theorem crop_ir_head_aligned (w left right : List ℚ) (speaker : String)
    (fs head_ms pl pr : ℕ)
    (hl : findFirstPeak left = some pl) (hr : findFirstPeak right = some pr)
    (hpl : pl < left.length) (hpr : pr < right.length)
    (hsp : speaker ∈ SPEAKER_NAMES)
    (hw : w.length = headN head_ms fs)
    (hconsL : pl < pr → sideChar speaker ≠ 'R')
    (hconsR : pr ≤ pl → sideChar speaker ≠ 'L')
    (hlead : delayN speaker fs head_ms ≤ min pl pr) :
    ∃ l2 r2, crop_ir_head w left right speaker fs head_ms = .ok (l2, r2) ∧
      l2.length = left.length - (min pl pr - delayN speaker fs head_ms) ∧
      r2.length = right.length - (min pl pr - delayN speaker fs head_ms) ∧
      l2.drop (delayN speaker fs head_ms + (pl - min pl pr)) = left.drop pl ∧
      r2.drop (delayN speaker fs head_ms + (pr - min pl pr)) = right.drop pr := by
  obtain ⟨d, hd⟩ : ∃ d, lookupDelay speaker = some d := by
    fin_cases hsp <;> exact ⟨_, rfl⟩
  have hdN : delayN speaker fs head_ms =
      (npRound (d / 1000 * (fs:ℚ))).toNat + headN head_ms fs := by
    rw [delayN, hd]
    rfl
  have hhd : headN head_ms fs ≤ delayN speaker fs head_ms := by
    rw [hdN]; omega
  by_cases hplr : pl < pr
  · have hmn : min pl pr = pl := by omega
    rw [hmn]
    have hR := hconsL hplr
    simp only [crop_ir_head, hl, hr, hd, if_pos hplr, if_neg hR]
    have hitd : max pl pr - min pl pr = pr - pl := by omega
    rw [hitd, ← hdN]
    rw [pySliceFrom_nonneg left pl _ (by omega),
        pySliceFrom_nonneg right pr _ (by omega)]
    obtain ⟨l2v, hl2⟩ : ∃ y, fadeIn w (headN head_ms fs)
        (left.drop (pl - delayN speaker fs head_ms)) = some y :=
      ⟨_, fadeIn_some_of_le _ _ _ (by rw [List.length_drop]; omega)⟩
    obtain ⟨r2v, hr2⟩ : ∃ y, fadeIn w (headN head_ms fs)
        (right.drop (pr - (delayN speaker fs head_ms + (pr - pl)))) = some y :=
      ⟨_, fadeIn_some_of_le _ _ _ (by rw [List.length_drop]; omega)⟩
    rw [hl2, hr2]
    refine ⟨l2v, r2v, rfl, ?_, ?_, ?_, ?_⟩
    · have hlen := fadeIn_length w _ _ _ hw hl2
      rw [List.length_drop] at hlen
      exact hlen
    · have hlen := fadeIn_length w _ _ _ hw hr2
      rw [List.length_drop] at hlen
      rw [hlen]
      omega
    · have hdrop := fadeIn_drop w _ _ _ hw hl2 (delayN speaker fs head_ms + (pl - pl))
        (by omega)
      rw [hdrop, List.drop_drop]
      congr 1
      omega
    · have hdrop := fadeIn_drop w _ _ _ hw hr2 (delayN speaker fs head_ms + (pr - pl))
        (by omega)
      rw [hdrop, List.drop_drop]
      congr 1
      omega
  · have hmn : min pl pr = pr := by omega
    rw [hmn]
    have hL := hconsR (by omega)
    simp only [crop_ir_head, hl, hr, hd, if_neg hplr, if_neg hL]
    have hitd : max pl pr - min pl pr = pl - pr := by omega
    rw [hitd, ← hdN]
    rw [pySliceFrom_nonneg left pl _ (by omega),
        pySliceFrom_nonneg right pr _ (by omega)]
    obtain ⟨l2v, hl2⟩ : ∃ y, fadeIn w (headN head_ms fs)
        (left.drop (pl - (delayN speaker fs head_ms + (pl - pr)))) = some y :=
      ⟨_, fadeIn_some_of_le _ _ _ (by rw [List.length_drop]; omega)⟩
    obtain ⟨r2v, hr2⟩ : ∃ y, fadeIn w (headN head_ms fs)
        (right.drop (pr - delayN speaker fs head_ms)) = some y :=
      ⟨_, fadeIn_some_of_le _ _ _ (by rw [List.length_drop]; omega)⟩
    rw [hl2, hr2]
    refine ⟨l2v, r2v, rfl, ?_, ?_, ?_, ?_⟩
    · have hlen := fadeIn_length w _ _ _ hw hl2
      rw [List.length_drop] at hlen
      rw [hlen]
      omega
    · have hlen := fadeIn_length w _ _ _ hw hr2
      rw [List.length_drop] at hlen
      exact hlen
    · have hdrop := fadeIn_drop w _ _ _ hw hl2 (delayN speaker fs head_ms + (pl - pr))
        (by omega)
      rw [hdrop, List.drop_drop]
      congr 1
      omega
    · have hdrop := fadeIn_drop w _ _ _ hw hr2 (delayN speaker fs head_ms + (pr - pr))
        (by omega)
      rw [hdrop, List.drop_drop]
      congr 1
      omega

/-- Witness for `crop_ir_head_aligned`: FL at 1000 Hz (targetDelay 1),
peaks at 1 and 2. -/
theorem crop_ir_head_aligned_witness :
    ∃ l2 r2, crop_ir_head [5] [0,1,0,0] [0,0,1,0] "FL" 1000 1 = .ok (l2, r2) ∧
      l2.length = ([0,1,0,0] : List ℚ).length - (min 1 2 - delayN "FL" 1000 1) ∧
      r2.length = ([0,0,1,0] : List ℚ).length - (min 1 2 - delayN "FL" 1000 1) ∧
      l2.drop (delayN "FL" 1000 1 + (1 - min 1 2)) = ([0,1,0,0] : List ℚ).drop 1 ∧
      r2.drop (delayN "FL" 1000 1 + (2 - min 1 2)) = ([0,0,1,0] : List ℚ).drop 2 :=
  crop_ir_head_aligned [5] [0,1,0,0] [0,0,1,0] "FL" 1000 1 1 2
    (by decide) (by decide) (by decide) (by decide) (by decide) (by decide)
    (by decide) (by decide) (by decide)

/-- C2 counterexample: a perfectly consistent FL pair (left peak 1, right
peak 2) at 5000 Hz, where the target delay is 6 but the near peak sits at
index 1: the slice start `1 − 6 = −5` wraps and the returned channels have
only 5 samples — there is no sample at index 6 at all, so the claimed
postcondition "exactly targetDelay samples precede the near ear's peak"
fails (the detected peak sample is not even in the output). -/
theorem crop_ir_head_aligned_cex :
    crop_ir_head [1,1,1,1,1] [0,1,0,0,0,0,0,0] [0,0,1,0,0,0,0,0] "FL" 5000 1 =
      .ok ([0,0,0,0,0], [0,0,0,0,0]) ∧
    delayN "FL" 5000 1 = 6 ∧
    findFirstPeak ([0,1,0,0,0,0,0,0] : List ℚ) = some 1 ∧
    findFirstPeak ([0,0,1,0,0,0,0,0] : List ℚ) = some 2 ∧
    ([0,0,0,0,0] : List ℚ).length = 5 := by
  refine ⟨by decide, by decide, by decide, by decide, by decide⟩

/-- C10 (amended): when the earlier peak index is below the required lead
the crop start index is negative and the slice silently wraps from the end
of the array — but only as long as the wrapped remainder
`targetDelay − min(peaks)` is at least the head-room count does the
function return (drastically shortened) channels of that length; when the
remainder is shorter than the head-room the subsequent fade-in window
multiplication fails with a broadcast error instead
(`crop_ir_head_wrap_cex`).  In neither case does it pad or report the
underlying problem. -/
theorem crop_ir_head_wrap (w left right : List ℚ) (speaker : String)
    (fs head_ms pl pr : ℕ)
    (hl : findFirstPeak left = some pl) (hr : findFirstPeak right = some pr)
    (hsp : speaker ∈ SPEAKER_NAMES)
    (hw : w.length = headN head_ms fs)
    (hconsL : pl < pr → sideChar speaker ≠ 'R')
    (hconsR : pr ≤ pl → sideChar speaker ≠ 'L')
    (hshort : min pl pr < delayN speaker fs head_ms)
    (hfade : headN head_ms fs ≤ delayN speaker fs head_ms - min pl pr)
    (hlenL : delayN speaker fs head_ms - min pl pr < left.length)
    (hlenR : delayN speaker fs head_ms - min pl pr < right.length) :
    ∃ l2 r2, crop_ir_head w left right speaker fs head_ms = .ok (l2, r2) ∧
      l2.length = delayN speaker fs head_ms - min pl pr ∧
      r2.length = delayN speaker fs head_ms - min pl pr ∧
      l2.length < left.length ∧ r2.length < right.length ∧
      l2.drop (headN head_ms fs) =
        left.drop (left.length - (delayN speaker fs head_ms - min pl pr) +
          headN head_ms fs) ∧
      r2.drop (headN head_ms fs) =
        right.drop (right.length - (delayN speaker fs head_ms - min pl pr) +
          headN head_ms fs) := by
  obtain ⟨d, hd⟩ : ∃ d, lookupDelay speaker = some d := by
    fin_cases hsp <;> exact ⟨_, rfl⟩
  have hdN : delayN speaker fs head_ms =
      (npRound (d / 1000 * (fs:ℚ))).toNat + headN head_ms fs := by
    rw [delayN, hd]
    rfl
  by_cases hplr : pl < pr
  · have hmn : min pl pr = pl := by omega
    rw [hmn] at hshort hfade hlenL hlenR ⊢
    have hR := hconsL hplr
    simp only [crop_ir_head, hl, hr, hd, if_pos hplr, if_neg hR]
    have hitd : max pl pr - min pl pr = pr - pl := by omega
    rw [hitd, ← hdN]
    rw [pySliceFrom_negWrap left pl _ (by omega) (by omega),
        pySliceFrom_negWrap right pr _ (by omega) (by omega)]
    have heq : delayN speaker fs head_ms + (pr - pl) - pr = delayN speaker fs head_ms - pl := by
      omega
    rw [heq]
    obtain ⟨l2v, hl2⟩ : ∃ y, fadeIn w (headN head_ms fs)
        (left.drop (left.length - (delayN speaker fs head_ms - pl))) = some y :=
      ⟨_, fadeIn_some_of_le _ _ _ (by rw [List.length_drop]; omega)⟩
    obtain ⟨r2v, hr2⟩ : ∃ y, fadeIn w (headN head_ms fs)
        (right.drop (right.length - (delayN speaker fs head_ms - pl))) = some y :=
      ⟨_, fadeIn_some_of_le _ _ _ (by rw [List.length_drop]; omega)⟩
    rw [hl2, hr2]
    refine ⟨l2v, r2v, rfl, ?_, ?_, ?_, ?_, ?_, ?_⟩
    · have hlen := fadeIn_length w _ _ _ hw hl2
      rw [List.length_drop] at hlen
      rw [hlen]; omega
    · have hlen := fadeIn_length w _ _ _ hw hr2
      rw [List.length_drop] at hlen
      rw [hlen]; omega
    · have hlen := fadeIn_length w _ _ _ hw hl2
      rw [List.length_drop] at hlen
      rw [hlen]; omega
    · have hlen := fadeIn_length w _ _ _ hw hr2
      rw [List.length_drop] at hlen
      rw [hlen]; omega
    · have hdrop := fadeIn_drop w _ _ _ hw hl2 (headN head_ms fs) (le_refl _)
      rw [hdrop, List.drop_drop]
    · have hdrop := fadeIn_drop w _ _ _ hw hr2 (headN head_ms fs) (le_refl _)
      rw [hdrop, List.drop_drop]
  · have hmn : min pl pr = pr := by omega
    rw [hmn] at hshort hfade hlenL hlenR ⊢
    have hL := hconsR (by omega)
    simp only [crop_ir_head, hl, hr, hd, if_neg hplr, if_neg hL]
    have hitd : max pl pr - min pl pr = pl - pr := by omega
    rw [hitd, ← hdN]
    rw [pySliceFrom_negWrap left pl _ (by omega) (by omega),
        pySliceFrom_negWrap right pr _ (by omega) (by omega)]
    have heq : delayN speaker fs head_ms + (pl - pr) - pl = delayN speaker fs head_ms - pr := by
      omega
    rw [heq]
    obtain ⟨l2v, hl2⟩ : ∃ y, fadeIn w (headN head_ms fs)
        (left.drop (left.length - (delayN speaker fs head_ms - pr))) = some y :=
      ⟨_, fadeIn_some_of_le _ _ _ (by rw [List.length_drop]; omega)⟩
    obtain ⟨r2v, hr2⟩ : ∃ y, fadeIn w (headN head_ms fs)
        (right.drop (right.length - (delayN speaker fs head_ms - pr))) = some y :=
      ⟨_, fadeIn_some_of_le _ _ _ (by rw [List.length_drop]; omega)⟩
    rw [hl2, hr2]
    refine ⟨l2v, r2v, rfl, ?_, ?_, ?_, ?_, ?_, ?_⟩
    · have hlen := fadeIn_length w _ _ _ hw hl2
      rw [List.length_drop] at hlen
      rw [hlen]; omega
    · have hlen := fadeIn_length w _ _ _ hw hr2
      rw [List.length_drop] at hlen
      rw [hlen]; omega
    · have hlen := fadeIn_length w _ _ _ hw hl2
      rw [List.length_drop] at hlen
      rw [hlen]; omega
    · have hlen := fadeIn_length w _ _ _ hw hr2
      rw [List.length_drop] at hlen
      rw [hlen]; omega
    · have hdrop := fadeIn_drop w _ _ _ hw hl2 (headN head_ms fs) (le_refl _)
      rw [hdrop, List.drop_drop]
    · have hdrop := fadeIn_drop w _ _ _ hw hr2 (headN head_ms fs) (le_refl _)
      rw [hdrop, List.drop_drop]

/-- Witness for `crop_ir_head_wrap`: FL at 5000 Hz, target delay 6, near
peak at 1 — the wrapped remainder 5 equals the head-room, so the crop
silently returns 5-sample channels. -/
theorem crop_ir_head_wrap_witness :
    ∃ l2 r2, crop_ir_head [2,2,2,2,2] [0,1,0,0,0,0,0,0] [0,0,1,0,0,0,0,0]
        "FL" 5000 1 = .ok (l2, r2) ∧
      l2.length = delayN "FL" 5000 1 - min 1 2 ∧
      r2.length = delayN "FL" 5000 1 - min 1 2 ∧
      l2.length < ([0,1,0,0,0,0,0,0] : List ℚ).length ∧
      r2.length < ([0,0,1,0,0,0,0,0] : List ℚ).length ∧
      l2.drop (headN 1 5000) =
        ([0,1,0,0,0,0,0,0] : List ℚ).drop
          (([0,1,0,0,0,0,0,0] : List ℚ).length - (delayN "FL" 5000 1 - min 1 2) +
            headN 1 5000) ∧
      r2.drop (headN 1 5000) =
        ([0,0,1,0,0,0,0,0] : List ℚ).drop
          (([0,0,1,0,0,0,0,0] : List ℚ).length - (delayN "FL" 5000 1 - min 1 2) +
            headN 1 5000) :=
  crop_ir_head_wrap [2,2,2,2,2] [0,1,0,0,0,0,0,0] [0,0,1,0,0,0,0,0] "FL" 5000 1 1 2
    (by decide) (by decide) (by decide) (by decide) (by decide) (by decide)
    (by decide) (by decide) (by decide) (by decide)

/-- C10 counterexample: FL at 2000 Hz — target delay 2, head-room 2, near
peak at 1.  The wrapped remainder is a single sample, shorter than the
head-room, so the fade-in multiplication raises a broadcast error: the
function does **not** silently produce a shortened response here, it
fails. -/
theorem crop_ir_head_wrap_cex :
    crop_ir_head [1,1] [0,1,0,0] [0,0,1,0] "FL" 2000 1 = .error .broadcast ∧
    delayN "FL" 2000 1 = 2 ∧
    findFirstPeak ([0,1,0,0] : List ℚ) = some 1 ∧
    findFirstPeak ([0,0,1,0] : List ℚ) = some 2 := by
  refine ⟨by decide, by decide, by decide, by decide⟩

/-! ### Tail Truncator cross-channel stage (impulcifer.py lines 599-615)

`main` computes `tail_index(impulse_response_decay(track), fs/1000)` for
every non-silent cropped channel, takes `max(tail_indices)` and slices
every channel (silent ones included) with `[:tail_ind]`.  The decay-curve
computation (`impulse_response_decay`) uses floating-point sqrt, log10
and 200 Savitzky-Golay passes, so it enters as the function parameter
`decay`; `ws` is `fs / 1000` (a float in the source, passed to
`tail_index` as the window size). -/

/-- `len(np.nonzero(track)[0]) > 0`. -/
def nonSilent (t : List ℚ) : Bool := t.any (fun x => decide (x ≠ 0))

/-- Sequences optional per-channel tail indices; `none` propagates a
`tail_index` failure. -/
def seqOptions : List (Option ℕ) → Option (List ℕ)
  | [] => some []
  | none :: _ => none
  | some x :: rest => (seqOptions rest).map (fun l => x :: l)

/-- The tail-cropping loop of `main`: `none` models the Python errors
(a `tail_index` failure, or `max()` on an empty sequence when every
channel is silent). -/
def cropTails (decay : List ℚ → List ℚ) (ws : ℚ) (tracks : List (List ℚ)) :
    Option (List (List ℚ)) :=
  match seqOptions ((tracks.filter (fun t => nonSilent t)).map
      (fun t => tail_index (decay t) ws)) with
  | none => none
  | some [] => none
  | some (t :: ts) => some (tracks.map (fun tr => tr.take ((t :: ts).foldl max 0)))

theorem seqOptions_eq_some : ∀ {l : List (Option ℕ)} {v : List ℕ},
    seqOptions l = some v → l = v.map some := by
  intro l
  induction l with
  | nil =>
    intro v h
    obtain rfl := Option.some.inj h
    rfl
  | cons o rest ih =>
    intro v h
    cases o with
    | none => simp [seqOptions] at h
    | some x =>
      cases hres : seqOptions rest with
      | none => simp [seqOptions, hres] at h
      | some v' =>
        simp only [seqOptions, hres, Option.map_some] at h
        obtain rfl := Option.some.inj h
        simp [ih hres]

theorem le_foldl_max_init : ∀ (l : List ℕ) (a : ℕ), a ≤ l.foldl max a := by
  intro l
  induction l with
  | nil => intro a; exact le_refl a
  | cons b t ih =>
    intro a
    exact le_trans (le_max_left a b) (ih (max a b))

theorem mem_le_foldl_max : ∀ (l : List ℕ) (a x : ℕ), x ∈ l → x ≤ l.foldl max a := by
  intro l
  induction l with
  | nil => intro a x h; simp at h
  | cons b t ih =>
    intro a x h
    rcases List.mem_cons.mp h with rfl | h'
    · exact le_trans (le_max_right a x) (le_foldl_max_init t (max a x))
    · exact ih (max a b) x h'

theorem foldl_max_mem : ∀ (l : List ℕ) (a : ℕ), l.foldl max a = a ∨ l.foldl max a ∈ l := by
  intro l
  induction l with
  | nil => intro a; exact Or.inl rfl
  | cons b t ih =>
    intro a
    rw [List.foldl_cons]
    rcases ih (max a b) with h | h
    · rcases max_choice a b with h2 | h2
      · left
        rw [h, h2]
      · right
        rw [h, h2]
        exact List.mem_cons_self b t
    · exact Or.inr (List.mem_cons_of_mem b h)

/-- C8 (amended): when the tail-cropping stage succeeds, every channel —
silent ones included — is sliced with one common cutoff `ti`, the maximum
of the tail indices computed independently on the non-silent channels,
and every surviving sample keeps its original index (`List.take`); but a
channel is only guaranteed to *have* `ti` samples when it is at least
`ti` long: all channels end up with equal length `ti` exactly when the
cutoff does not exceed the shortest channel (otherwise the shorter
channel keeps its smaller length and the subsequent `np.vstack` fails,
see `cropTails_unequal_cex`). -/
theorem cropTails_common_cutoff (decay : List ℚ → List ℚ) (ws : ℚ)
    (tracks out : List (List ℚ)) (h : cropTails decay ws tracks = some out) :
    ∃ ti : ℕ,
      out = tracks.map (fun tr => tr.take ti) ∧
      (∀ t ∈ tracks, nonSilent t = true → ∃ n, tail_index (decay t) ws = some n ∧ n ≤ ti) ∧
      (∃ t ∈ tracks, nonSilent t = true ∧ tail_index (decay t) ws = some ti) ∧
      ((∀ t ∈ tracks, ti ≤ t.length) → ∀ o ∈ out, o.length = ti) := by
  rw [cropTails] at h
  cases hseq : seqOptions ((tracks.filter (fun t => nonSilent t)).map
      (fun t => tail_index (decay t) ws)) with
  | none => rw [hseq] at h; simp at h
  | some ts0 =>
    cases ts0 with
    | nil => rw [hseq] at h; simp at h
    | cons t ts =>
      rw [hseq] at h
      simp only at h
      obtain rfl := (Option.some.inj h).symm
      have hlist := seqOptions_eq_some hseq
      refine ⟨(t :: ts).foldl max 0, rfl, ?_, ?_, ?_⟩
      · intro tr htr hns
        have hmem : tail_index (decay tr) ws ∈
            (tracks.filter (fun t => nonSilent t)).map (fun t => tail_index (decay t) ws) :=
          List.mem_map_of_mem _ (List.mem_filter.mpr ⟨htr, hns⟩)
        rw [hlist] at hmem
        obtain ⟨n, hn, heq⟩ := List.mem_map.mp hmem
        exact ⟨n, heq.symm, mem_le_foldl_max _ _ _ hn⟩
      · have hmemti : (t :: ts).foldl max 0 ∈ t :: ts := by
          rcases foldl_max_mem (t :: ts) 0 with h0 | hm
          · have ht0 : t ≤ (t :: ts).foldl max 0 :=
              mem_le_foldl_max _ _ _ (List.mem_cons_self t ts)
            rw [h0] at ht0 ⊢
            have : t = 0 := by omega
            rw [← this]
            exact List.mem_cons_self t ts
          · exact hm
        have hmap : some ((t :: ts).foldl max 0) ∈ (t :: ts).map some :=
          List.mem_map_of_mem some hmemti
        rw [← hlist] at hmap
        obtain ⟨tr, htrf, heq⟩ := List.mem_map.mp hmap
        have htr2 := List.mem_filter.mp htrf
        exact ⟨tr, htr2.1, htr2.2, heq⟩
      · intro hle o ho
        obtain ⟨tr, htr, rfl⟩ := List.mem_map.mp ho
        rw [List.length_take]
        have := hle tr htr
        omega

/-- Witness for `cropTails_common_cutoff` on a single non-silent channel
with tail index 1. -/
theorem cropTails_common_cutoff_witness :
    ∃ ti : ℕ,
      ([[5]] : List (List ℚ)) = ([[5, 0, 1]] : List (List ℚ)).map (fun tr => tr.take ti) ∧
      (∀ t ∈ ([[5, 0, 1]] : List (List ℚ)), nonSilent t = true →
        ∃ n, tail_index ((fun t => t) t) 1 = some n ∧ n ≤ ti) ∧
      (∃ t ∈ ([[5, 0, 1]] : List (List ℚ)), nonSilent t = true ∧
        tail_index ((fun t => t) t) 1 = some ti) ∧
      ((∀ t ∈ ([[5, 0, 1]] : List (List ℚ)), ti ≤ t.length) →
        ∀ o ∈ ([[5]] : List (List ℚ)), o.length = ti) :=
  cropTails_common_cutoff (fun t => t) 1 [[5, 0, 1]] [[5]] (by decide)

/-- C8 counterexample: with two non-silent channels of lengths 5 and 3
whose (here directly supplied) decay curves give tail indices 30 and 10
at window size 10, the common cutoff 30 exceeds the shorter channel's
length: `[:30]` leaves the channels at lengths 5 and 3 — not equal — so
"all channels have equal length" fails (and the `np.vstack` that follows
in `main` would raise). -/
theorem cropTails_unequal_cex :
    cropTails (fun t => t) 10 [[20, 19, 18, 0, 1], [5, 0, 1]] =
      some [[20, 19, 18, 0, 1], [5, 0, 1]] ∧
    tail_index ([20, 19, 18, 0, 1] : List ℚ) 10 = some 30 ∧
    tail_index ([5, 0, 1] : List ℚ) 10 = some 10 ∧
    (([20, 19, 18, 0, 1] : List ℚ).take 30).length ≠
      (([5, 0, 1] : List ℚ).take 30).length := by
  refine ⟨by decide, by decide, by decide, by decide⟩

end Impulcifer
